import Mathlib

/-!
Verification of the Artificial Bee Colony TSP solver (src/main.rs).

The Rust program is shallowly embedded: tours are `List ℕ`, distance
matrices are `List (List ℚ)` (coordinates and distances are modelled as
rationals, with the Euclidean square root mapped into `ℝ`), randomness is
an explicit oracle (a list or function of draws), and fallible code
returns `Option`.  Machine floats are modelled as exact rationals, so the
order comparisons of the source are the rational ones.
-/

namespace ABC

/-- Embeds the Rust enum GenerationMethod (main.rs lines 29-36).
The source constructor PartialShuffle is rendered partShuffle. -/
inductive GenerationMethod
  | none
  | swap
  | insert
  | reverse
  | partShuffle
deriving DecidableEq, Repr

/-- Embeds the Rust struct ConfigKind (main.rs lines 18-27);
improvement_threshold (an f64 in the source) is modelled as ℚ. -/
structure ConfigKind where
  colony_size : ℕ
  candidate_amount : ℕ
  max_unimproved : ℕ
  max_iterations : ℕ
  improvement_threshold : ℚ
  concurrent_count : ℕ
  generation_method : GenerationMethod
deriving DecidableEq, Repr

/-- Embeds validate_config (main.rs lines 162-178): `true` iff the source
function returns without panicking; each `if` branch mirrors one panic. -/
def validate_config (config : ConfigKind) : Bool :=
  if config.colony_size < 1 ∨ config.colony_size % 2 ≠ 0 then false
  else if config.max_unimproved < 1 then false
  else if config.max_iterations < 1 then false
  else if config.improvement_threshold < 0 ∨ config.improvement_threshold > 100 then false
  else if config.candidate_amount < 1 then false
  else if config.concurrent_count < 1 then false
  else if config.generation_method = GenerationMethod.none then false
  else true

/-- Embeds the generation_method arm of read_config (main.rs lines 114-120):
`Option.none` models the `panic!("Unknown configuration.")` on an
unrecognized name. -/
def parse_generation_method (value : String) : Option GenerationMethod :=
  if value = "Swap" then some GenerationMethod.swap
  else if value = "Insert" then some GenerationMethod.insert
  else if value = "Reverse" then some GenerationMethod.reverse
  else if value = "PartialShuffle" then some GenerationMethod.partShuffle
  else Option.none

/-- Embeds euclidean_distance (main.rs lines 139-148): `Option.none`
models the panic on a coordinate-dimension mismatch; the accumulation of
squared differences follows the source's `for` loop, and the final
`sqrt` maps into ℝ. -/
noncomputable def euclidean_distance (city1 city2 : List ℚ) : Option ℝ :=
  if city1.length ≠ city2.length then Option.none
  else some (Real.sqrt ((List.range city1.length).foldl
    (fun acc d =>
      acc + (((city1.getD d 0 : ℚ) : ℝ) - ((city2.getD d 0 : ℚ) : ℝ)) ^ 2) 0))

/-- Writes value v into cell (i, j) of a row-major matrix. -/
def setEntry (m : List (List ℝ)) (i j : ℕ) (v : ℝ) : List (List ℝ) :=
  m.set i ((m.getD i []).set j v)

/-- Reads cell (i, j) of a row-major real matrix (default 0). -/
def entry (m : List (List ℝ)) (i j : ℕ) : ℝ :=
  (m.getD i []).getD j 0

/-- The index pairs (i, j) with i < j < n, in the order the nested loops
of calc_cities_distance (main.rs lines 152-158) visit them. -/
def pairList (n : ℕ) : List (ℕ × ℕ) :=
  (List.range n).flatMap
    (fun i => (List.range' (i + 1) (n - (i + 1))).map (fun j => (i, j)))

/-- One step of the double loop of calc_cities_distance: compute the
distance of the pair and mirror it into both matrix cells. -/
noncomputable def distStep (cities : List (List ℚ)) (m : List (List ℝ))
    (ij : ℕ × ℕ) : Option (List (List ℝ)) :=
  match euclidean_distance (cities.getD ij.1 []) (cities.getD ij.2 []) with
  | Option.none => Option.none
  | some d => some (setEntry (setEntry m ij.1 ij.2 d) ij.2 ij.1 d)

/-- Embeds calc_cities_distance (main.rs lines 150-160): an n×n matrix of
zeros, filled pairwise; `Option.none` models the panic raised by
euclidean_distance on ragged input. -/
noncomputable def calc_cities_distance (cities : List (List ℚ)) :
    Option (List (List ℝ)) :=
  (pairList cities.length).foldlM (distStep cities)
    (List.replicate cities.length (List.replicate cities.length (0 : ℝ)))

/-- Entry (i, j) of a distance matrix; out-of-range reads default to 0
(the source would panic there, but every verified call is in range). -/
def matEntry (dist : List (List ℚ)) (i j : ℕ) : ℚ :=
  (dist.getD i []).getD j 0

/-- Embeds calc_path_length (main.rs lines 187-194): the `for` loop over
`0..(len-1)` is a fold over `List.range (len-1)`, followed by the
wrap-around edge from the last city back to the first. -/
def calc_path_length (solution : List ℕ) (dist : List (List ℚ)) : ℚ :=
  (List.range (solution.length - 1)).foldl
    (fun acc i => acc + matEntry dist (solution.getD i 0) (solution.getD (i + 1) 0)) 0
  + matEntry dist (solution.getD (solution.length - 1) 0) (solution.getD 0 0)

/-- Embeds the selection loop of onlooker_bee (main.rs lines 322-335).
The source's `while` draws two fresh random indices in [0, m) per
iteration and retries on collision; the random draws are the oracle list
`draws` (taken mod m, the candidate count) and `fuel` bounds the number
of loop iterations, with `Option.none` modelling a run that does not
finish within `fuel` iterations (or exhausts the oracle). -/
def onlooker_rounds (cand : List (List ℕ)) (dist : List (List ℚ)) (m : ℕ) :
    ℕ → List ℕ → List ℕ → Option (List ℕ)
  | 0, _, _ => Option.none
  | fuel + 1, draws, selected =>
    if selected.length < m then
      match draws with
      | d1 :: d2 :: rest =>
        if d1 % m = d2 % m then
          onlooker_rounds cand dist m fuel rest selected
        else if calc_path_length (cand.getD (d1 % m) []) dist >
            calc_path_length (cand.getD (d2 % m) []) dist then
          onlooker_rounds cand dist m fuel rest (selected ++ [d1 % m])
        else
          onlooker_rounds cand dist m fuel rest (selected ++ [d2 % m])
      | _ => Option.none
    else some selected

/-- Embeds onlooker_bee (main.rs lines 318-343): run the selection loop,
tally wins per candidate index, and return (a clone of) the candidate
holding the first maximal tally. -/
def onlooker_bee (cand : List (List ℕ)) (dist : List (List ℚ))
    (fuel : ℕ) (draws : List ℕ) : Option (List ℕ) :=
  match onlooker_rounds cand dist cand.length fuel draws [] with
  | Option.none => Option.none
  | some selected =>
    let count := (List.range cand.length).map (fun i => selected.count i)
    let max_count := count.foldl max 0
    let max_number := count.findIdx (fun c => c = max_count)
    some (cand.getD max_number [])

/-- A concrete symmetric 4-city distance matrix (cycle edges 1, chords 2)
used to exercise onlooker_bee. -/
def dist4 : List (List ℚ) :=
  [[0, 1, 2, 1], [1, 0, 1, 2], [2, 1, 0, 1], [1, 2, 1, 0]]

/-- Embeds swap (main.rs lines 223-236): the two distinct random
positions produced by the source's retry loop are the explicit arguments
p and q; Vec::swap reads both cells of the clone and exchanges them. -/
def swap (solution : List ℕ) (p q : ℕ) : List ℕ :=
  (solution.set p (solution.getD q 0)).set q (solution.getD p 0)

/-- Orders a position pair as insert/reverse/partial_shuffle do with
`if city1 > city2 { std::mem::swap(..) }`. -/
def orderPair (p q : ℕ) : ℕ × ℕ :=
  if p > q then (q, p) else (p, q)

/-- Embeds insert (main.rs lines 238-255): order the positions, remove
the element at the larger index, reinsert it at position smaller + 1. -/
def insert (solution : List ℕ) (p q : ℕ) : List ℕ :=
  ((solution.eraseIdx (orderPair p q).2).insertIdx ((orderPair p q).1 + 1)
    (solution.getD (orderPair p q).2 0))

/-- Embeds reverse (main.rs lines 257-273): order the positions and
reverse the inclusive slice [i, j] in place. -/
def reverse (solution : List ℕ) (p q : ℕ) : List ℕ :=
  solution.take (orderPair p q).1
    ++ ((solution.drop (orderPair p q).1).take
          ((orderPair p q).2 - (orderPair p q).1 + 1)).reverse
    ++ solution.drop ((orderPair p q).2 + 1)

/-- Embeds partial_shuffle (main.rs lines 275-292): the random
permutation the source's `shuffle` applies to the inclusive slice [i, j]
is the explicit oracle argument `shuffled`. -/
def part_shuffle (solution : List ℕ) (p q : ℕ) (shuffled : List ℕ) : List ℕ :=
  solution.take (orderPair p q).1 ++ shuffled
    ++ solution.drop ((orderPair p q).2 + 1)

/-- Follows the spec's wording for Insert, for comparison with the
source-derived `insert`: with ordered positions i < j, remove the element
at position j, then split the shortened tour immediately after position i
and put the removed element back there. -/
def insert_described (solution : List ℕ) (i j : ℕ) : List ℕ :=
  (solution.take j ++ solution.drop (j + 1)).take (i + 1)
    ++ solution.getD j 0
      :: (solution.take j ++ solution.drop (j + 1)).drop (i + 1)

/-- The mutable state of artificial_bee_colony (main.rs lines 377-380):
population tours, their lengths, per-member stagnation counters, and the
best solution found so far. -/
structure ColonyState where
  solutions : List (List ℕ)
  lengths : List ℚ
  unimproved : List ℕ
  best : List ℕ
  best_length : ℚ

/-- One index of the greedy-replacement loop (main.rs lines 383-391):
adopt the trial tour and length and reset the counter exactly when the
trial is strictly shorter, otherwise bump the counter. -/
def greedy_step (new_solutions : List (List ℕ)) (new_lengths : List ℚ)
    (index : ℕ) (st : ColonyState) : ColonyState :=
  if new_lengths.getD index 0 < st.lengths.getD index 0 then
    { st with
      solutions := st.solutions.set index (new_solutions.getD index []),
      lengths := st.lengths.set index (new_lengths.getD index 0),
      unimproved := st.unimproved.set index 0 }
  else
    { st with
      unimproved := st.unimproved.set index (st.unimproved.getD index 0 + 1) }

/-- Runs a per-index state update for index = 0, 1, ..., half - 1, as the
source's `for index in 0..(colony_size / 2)` loops do. -/
def index_fold (step : ℕ → ColonyState → ColonyState) (half : ℕ)
    (st : ColonyState) : ColonyState :=
  (List.range half).foldl (fun s i => step i s) st

/-- The greedy-replacement loop over all population indices. -/
def greedy_phase (half : ℕ) (new_solutions : List (List ℕ))
    (new_lengths : List ℚ) (st : ColonyState) : ColonyState :=
  index_fold (greedy_step new_solutions new_lengths) half st

/-- One index of the scout loop (main.rs lines 392-398): when the
stagnation counter strictly exceeds max_unimproved, replace the tour by a
fresh random one (the oracle `scouts`), recompute its length, and reset
the counter. -/
def scout_step (dist : List (List ℚ)) (max_unimproved : ℕ)
    (scouts : List (List ℕ)) (index : ℕ) (st : ColonyState) : ColonyState :=
  if st.unimproved.getD index 0 > max_unimproved then
    { st with
      solutions := st.solutions.set index (scouts.getD index []),
      lengths := st.lengths.set index
        (calc_path_length (scouts.getD index []) dist),
      unimproved := st.unimproved.set index 0 }
  else st

/-- The scout loop over all population indices. -/
def scout_phase (dist : List (List ℚ)) (max_unimproved : ℕ) (half : ℕ)
    (scouts : List (List ℕ)) (st : ColonyState) : ColonyState :=
  index_fold (scout_step dist max_unimproved scouts) half st

/-- Embeds the min_by fold of main.rs line 399: Rust's Iterator::min_by
returns the first element among equal minima, so the candidate index is
replaced only on a strictly smaller value. -/
def min_index_aux : List ℚ → ℕ → ℕ → ℚ → ℕ
  | [], _, besti, _ => besti
  | x :: xs, i, besti, bestv =>
    if x < bestv then min_index_aux xs (i + 1) i x
    else min_index_aux xs (i + 1) besti bestv

/-- The index of the first minimum of a length list (main.rs line 399). -/
def min_index : List ℚ → ℕ
  | [] => 0
  | x :: xs => min_index_aux xs 1 0 x

/-- The smallest value of a list (0 for the empty list, which the source
would have rejected by panicking in unwrap). -/
def list_min : List ℚ → ℚ
  | [] => 0
  | x :: xs => xs.foldl min x

/-- Embeds the best-update and convergence check (main.rs lines 399-407):
returns the updated state and whether the loop breaks; the relative
improvement is computed against the old best length before updating. -/
def best_update (improvement_threshold : ℚ) (st : ColonyState) :
    ColonyState × Bool :=
  if st.lengths.getD (min_index st.lengths) 0 < st.best_length then
    ({ st with
        best := st.solutions.getD (min_index st.lengths) [],
        best_length := st.lengths.getD (min_index st.lengths) 0 },
      decide ((st.best_length - st.lengths.getD (min_index st.lengths) 0)
        / st.best_length < improvement_threshold))
  else (st, false)

/-- One full iteration of the optimization loop (main.rs lines 382-407):
the trial population produced by exploration_phase is the oracle
new_solutions with its lengths recomputed by calc_path_length exactly as
exploration_phase does, followed by greedy replacement, the scout phase,
and the best-update and convergence check. -/
def abc_iteration (dist : List (List ℚ)) (config : ConfigKind)
    (new_solutions : List (List ℕ)) (scouts : List (List ℕ))
    (st : ColonyState) : ColonyState × Bool :=
  best_update config.improvement_threshold
    (scout_phase dist config.max_unimproved (config.colony_size / 2) scouts
      (greedy_phase (config.colony_size / 2) new_solutions
        (new_solutions.map (fun s => calc_path_length s dist)) st))

/-- The iteration loop of main.rs line 381: runs up to `remaining`
iterations (max_iterations at top level) starting from iteration number
t, stopping early when an iteration breaks; returns the final state and
the total number of iterations executed.  `oracle` supplies each
iteration's trial population and scout tours. -/
def abc_loop (dist : List (List ℚ)) (config : ConfigKind)
    (oracle : ℕ → List (List ℕ) × List (List ℕ)) :
    ℕ → ℕ → ColonyState → ColonyState × ℕ
  | 0, t, st => (st, t)
  | remaining + 1, t, st =>
    if (abc_iteration dist config (oracle t).1 (oracle t).2 st).2 then
      ((abc_iteration dist config (oracle t).1 (oracle t).2 st).1, t + 1)
    else
      abc_loop dist config oracle remaining (t + 1)
        (abc_iteration dist config (oracle t).1 (oracle t).2 st).1

/-- Embeds artificial_bee_colony (main.rs lines 371-410): the random
initial population is the oracle init_solutions, lengths are computed as
initialize_phase does, the best is seeded from member 0, and the loop
runs for at most max_iterations iterations. -/
def artificial_bee_colony (dist : List (List ℚ)) (config : ConfigKind)
    (init_solutions : List (List ℕ))
    (oracle : ℕ → List (List ℕ) × List (List ℕ)) : List ℕ × ℚ :=
  ((abc_loop dist config oracle config.max_iterations 0
      { solutions := init_solutions,
        lengths := init_solutions.map (fun s => calc_path_length s dist),
        unimproved := List.replicate (config.colony_size / 2) 0,
        best := init_solutions.getD 0 [],
        best_length :=
          (init_solutions.map (fun s => calc_path_length s dist)).getD 0 0
        }).1.best,
   (abc_loop dist config oracle config.max_iterations 0
      { solutions := init_solutions,
        lengths := init_solutions.map (fun s => calc_path_length s dist),
        unimproved := List.replicate (config.colony_size / 2) 0,
        best := init_solutions.getD 0 [],
        best_length :=
          (init_solutions.map (fun s => calc_path_length s dist)).getD 0 0
        }).1.best_length)

/-- A concrete valid configuration (colony 2, one candidate) used to
instantiate the engine theorems. -/
def cfg1 : ConfigKind :=
  ⟨2, 1, 1, 1, 0, 1, GenerationMethod.swap⟩

/-- A concrete one-member colony state over the 1-city world. -/
def st_w : ColonyState :=
  ⟨[[0]], [0], [0], [0], 0⟩

/-- The state after the greedy and scout phases of one iteration of the
concrete instance. -/
def st2_w : ColonyState :=
  scout_phase [[0]] cfg1.max_unimproved (cfg1.colony_size / 2) [[0]]
    (greedy_phase (cfg1.colony_size / 2) [[0]]
      (([[0]] : List (List ℕ)).map (fun s => calc_path_length s [[0]])) st_w)

/-- A constant oracle for the concrete engine instance. -/
def oracle_w : ℕ → List (List ℕ) × List (List ℕ) :=
  fun _ => ([[0]], [[0]])

/-- The matrix properties maintained by calc_cities_distance: an n×n
matrix, symmetric, with zero diagonal and non-negative entries. -/
def symOK (n : ℕ) (m : List (List ℝ)) : Prop :=
  m.length = n ∧ (∀ row ∈ m, row.length = n) ∧
  (∀ a b, entry m a b = entry m b a) ∧ (∀ a, entry m a a = 0) ∧
  (∀ a b, 0 ≤ entry m a b)

/-- Folding addition over a list equals the initial value plus the sum of
the mapped list. -/
theorem foldl_add_eq_sum (f : ℕ → ℚ) (l : List ℕ) (a : ℚ) :
    l.foldl (fun acc i => acc + f i) a = a + (l.map f).sum := by
  induction l generalizing a with
  | nil => simp
  | cons x t ih => simp [ih, add_assoc]

/-- The range-indexed edge map of calc_path_length is the zip of the tour
with its own tail. -/
theorem range_map_eq_zip_adjacent (g : ℕ → ℕ → ℚ) (s : List ℕ) :
    (List.range (s.length - 1)).map
        (fun i => g (s.getD i 0) (s.getD (i + 1) 0)) =
      (s.zip (s.drop 1)).map (fun p => g p.1 p.2) := by
  induction s with
  | nil => simp
  | cons x t ih =>
    cases t with
    | nil => simp
    | cons y u =>
      have hfe : ∀ i ∈ List.range ((y :: u).length - 1),
          ((fun i => g ((x :: y :: u).getD i 0) ((x :: y :: u).getD (i + 1) 0))
              ∘ Nat.succ) i
            = (fun i => g ((y :: u).getD i 0) ((y :: u).getD (i + 1) 0)) i := by
        intro i _
        simp [List.getD_cons_succ]
      have h1 : (x :: y :: u).length - 1 = ((y :: u).length - 1) + 1 := by simp
      rw [h1, List.range_succ_eq_map, List.map_cons, List.map_map,
        List.map_congr_left hfe, ih]
      simp

/-- Every matrix entry is non-negative when all rows consist of
non-negative numbers (out-of-range reads default to 0). -/
theorem matEntry_nonneg (dist : List (List ℚ))
    (hnn : ∀ row ∈ dist, ∀ x ∈ row, (0 : ℚ) ≤ x) (i j : ℕ) :
    0 ≤ matEntry dist i j := by
  unfold matEntry
  rcases hrow : dist[i]? with _ | row
  · simp [List.getD_eq_getElem?_getD, hrow]
  · rcases hx : row[j]? with _ | x
    · simp [List.getD_eq_getElem?_getD, hrow, hx]
    · have hr : row ∈ dist := List.getElem?_mem hrow
      have hxm : x ∈ row := List.getElem?_mem hx
      have := hnn row hr x hxm
      simp [List.getD_eq_getElem?_getD, hrow, hx, this]

/-- C7: for a tour of length ≥ 1, calc_path_length is the sum of the
distances of consecutive tour edges plus the wrap-around edge from the
last to the first city, and it is non-negative when the matrix entries
are non-negative. -/
theorem calc_path_length_spec (solution : List ℕ) (dist : List (List ℚ))
    (hlen : 1 ≤ solution.length)
    (hnn : ∀ row ∈ dist, ∀ x ∈ row, (0 : ℚ) ≤ x) :
    calc_path_length solution dist =
      ((solution.zip (solution.drop 1)).map (fun p => matEntry dist p.1 p.2)).sum
        + matEntry dist (solution.getLast?.getD 0) (solution.head?.getD 0) ∧
    0 ≤ calc_path_length solution dist := by
  have hfold : calc_path_length solution dist =
      ((solution.zip (solution.drop 1)).map (fun p => matEntry dist p.1 p.2)).sum
        + matEntry dist (solution.getD (solution.length - 1) 0) (solution.getD 0 0) := by
    unfold calc_path_length
    rw [foldl_add_eq_sum, zero_add,
      range_map_eq_zip_adjacent (fun a b => matEntry dist a b) solution]
  constructor
  · rw [hfold]
    have hne : solution ≠ [] := by
      cases solution with
      | nil => simp at hlen
      | cons x t => simp
    have hlast : solution.getD (solution.length - 1) 0 = solution.getLast?.getD 0 := by
      rw [List.getLast?_eq_getElem? solution]
      simp [List.getD_eq_getElem?_getD]
    have hhead : solution.getD 0 0 = solution.head?.getD 0 := by
      cases solution with
      | nil => simp at hlen
      | cons x t => simp [List.getD]
    rw [hlast, hhead]
  · rw [hfold]
    have h1 : 0 ≤ ((solution.zip (solution.drop 1)).map
        (fun p => matEntry dist p.1 p.2)).sum := by
      refine List.sum_nonneg ?_
      intro x hx
      rcases List.mem_map.mp hx with ⟨p, _, hp⟩
      exact hp ▸ matEntry_nonneg dist hnn p.1 p.2
    have h2 := matEntry_nonneg dist hnn
      (solution.getD (solution.length - 1) 0) (solution.getD 0 0)
    exact add_nonneg h1 h2

/-- C7 witness: the spec of calc_path_length instantiated on the tour
[0, 1] over a 2×2 matrix with distance 2. -/
theorem calc_path_length_spec_witness :
    calc_path_length [0, 1] [[0, 2], [2, 0]] =
      ((([0, 1] : List ℕ).zip (([0, 1] : List ℕ).drop 1)).map
        (fun p => matEntry [[0, 2], [2, 0]] p.1 p.2)).sum
        + matEntry [[0, 2], [2, 0]] (([0, 1] : List ℕ).getLast?.getD 0)
            (([0, 1] : List ℕ).head?.getD 0) ∧
    0 ≤ calc_path_length [0, 1] [[0, 2], [2, 0]] :=
  calc_path_length_spec [0, 1] [[0, 2], [2, 0]] (by decide) (by decide)

/-- C9: validate_config rejects colony_size 0, odd colony_size, and any
improvement_threshold outside [0, 100]; the generation-method parser
rejects unrecognized names; and any config meeting the data-model
constraints passes validation. -/
theorem validate_config_spec (config : ConfigKind) (value : String) :
    (config.colony_size = 0 → validate_config config = false) ∧
    (config.colony_size % 2 = 1 → validate_config config = false) ∧
    (¬ (0 ≤ config.improvement_threshold ∧ config.improvement_threshold ≤ 100) →
      validate_config config = false) ∧
    (value ∉ (["Swap", "Insert", "Reverse", "PartialShuffle"] : List String) →
      parse_generation_method value = Option.none) ∧
    ((config.colony_size % 2 = 0 ∧ 2 ≤ config.colony_size ∧
      1 ≤ config.candidate_amount ∧ 1 ≤ config.max_unimproved ∧
      1 ≤ config.max_iterations ∧ 0 ≤ config.improvement_threshold ∧
      config.improvement_threshold ≤ 100 ∧ 1 ≤ config.concurrent_count ∧
      config.generation_method ≠ GenerationMethod.none) →
      validate_config config = true) := by
  refine ⟨?_, ?_, ?_, ?_, ?_⟩
  · intro h
    simp [validate_config, h]
  · intro h
    simp [validate_config, h]
  · intro h
    simp only [validate_config]
    split_ifs with a1 a2 a3 a4 <;> try rfl
    push_neg at a4
    exact absurd ⟨a4.1, a4.2⟩ h
  · intro h
    simp only [List.mem_cons, List.not_mem_nil, or_false, not_or] at h
    simp [parse_generation_method, h.1, h.2.1, h.2.2.1, h.2.2.2]
  · rintro ⟨he, hcs, hca, hmu, hmi, ht0, ht1, hcc, hg⟩
    simp only [validate_config]
    split_ifs with a1 a2 a3 a4 a5 a6
    · rcases a1 with a | a
      · omega
      · exact absurd he a
    · omega
    · omega
    · rcases a4 with a | a
      · exact absurd a (not_lt.mpr ht0)
      · exact absurd a (not_lt.mpr ht1)
    · omega
    · omega
    · rfl

/-- C9 witness: validate_config on a zero colony size, the parser on an
unknown name, and validate_config on a fully valid config. -/
theorem validate_config_spec_witness :
    validate_config ⟨0, 1, 1, 1, 0, 1, GenerationMethod.swap⟩ = false ∧
    parse_generation_method "Foo" = Option.none ∧
    validate_config ⟨2, 1, 1, 1, 0, 1, GenerationMethod.swap⟩ = true :=
  ⟨(validate_config_spec ⟨0, 1, 1, 1, 0, 1, GenerationMethod.swap⟩ "Foo").1 rfl,
   (validate_config_spec ⟨0, 1, 1, 1, 0, 1, GenerationMethod.swap⟩ "Foo").2.2.2.1
     (by decide),
   (validate_config_spec ⟨2, 1, 1, 1, 0, 1, GenerationMethod.swap⟩ "Foo").2.2.2.2
     (by decide)⟩

/-- Setting a position below the length and reading it back yields the
written value. -/
theorem getD_set_self_of_lt {α : Type} (l : List α) (i : ℕ) (x d : α)
    (h : i < l.length) : (l.set i x).getD i d = x := by
  simp [List.getD_eq_getElem?_getD, List.getElem?_set_self h]

/-- Setting one position leaves reads at any other position unchanged. -/
theorem getD_set_of_ne {α : Type} (l : List α) (i j : ℕ) (x d : α)
    (h : i ≠ j) : (l.set i x).getD j d = l.getD j d := by
  simp [List.getD_eq_getElem?_getD, List.getElem?_set_ne h]

/-- An in-range getD read is a member of the list. -/
theorem getD_mem_of_lt {α : Type} (l : List α) (i : ℕ) (d : α)
    (h : i < l.length) : l.getD i d ∈ l := by
  rw [List.getD_eq_getElem?_getD, List.getElem?_eq_getElem h, Option.getD_some]
  exact List.getElem?_mem (List.getElem?_eq_getElem h)

/-- Characterizes reads from a matrix after one in-range cell write. -/
theorem entry_setEntry (m : List (List ℝ)) (p q : ℕ) (v : ℝ) (a b : ℕ)
    (hp : p < m.length) (hq : q < (m.getD p []).length) :
    entry (setEntry m p q v) a b = if a = p ∧ b = q then v else entry m a b := by
  by_cases hap : a = p
  · by_cases hbq : b = q
    · subst hap
      subst hbq
      rw [if_pos ⟨rfl, rfl⟩]
      unfold entry setEntry
      rw [getD_set_self_of_lt _ _ _ _ hp, getD_set_self_of_lt _ _ _ _ hq]
    · subst hap
      rw [if_neg (fun hc => hbq hc.2)]
      unfold entry setEntry
      rw [getD_set_self_of_lt _ _ _ _ hp,
        getD_set_of_ne _ _ _ _ _ (Ne.symm hbq)]
  · rw [if_neg (fun hc => hap hc.1)]
    unfold entry setEntry
    rw [getD_set_of_ne _ _ _ _ _ (Ne.symm hap)]

/-- A fold in the Option monad preserves any invariant preserved by each
successful step. -/
theorem foldlM_option_inv {α β : Type} (f : β → α → Option β) (P : β → Prop) :
    ∀ (l : List α) (init : β), P init →
      (∀ m x r, x ∈ l → P m → f m x = some r → P r) →
      ∀ res, l.foldlM f init = some res → P res := by
  intro l
  induction l with
  | nil =>
    intro init h _ res hres
    simp only [List.foldlM_nil] at hres
    cases hres
    exact h
  | cons x t ih =>
    intro init h hstep res hres
    rw [List.foldlM_cons] at hres
    cases hfx : f init x with
    | none =>
      rw [hfx] at hres
      simp at hres
    | some m2 =>
      rw [hfx] at hres
      simp only [Option.bind_eq_bind, Option.some_bind] at hres
      exact ih m2 (hstep init x m2 (List.mem_cons_self x t) h hfx)
        (fun m y r hy => hstep m y r (List.mem_cons_of_mem x hy)) res hres

/-- A fold in the Option monad fails outright when some list element makes
the step fail from every accumulator. -/
theorem foldlM_option_stuck {α β : Type} (f : β → α → Option β) :
    ∀ (l : List α) (x : α), x ∈ l → (∀ m, f m x = Option.none) →
      ∀ init, l.foldlM f init = Option.none := by
  intro l
  induction l with
  | nil =>
    intro x hx
    simp at hx
  | cons y t ih =>
    intro x hx hf init
    rw [List.foldlM_cons]
    cases hfy : f init y with
    | none => simp
    | some m2 =>
      rcases List.mem_cons.mp hx with h | h
      · subst h
        rw [hf init] at hfy
        cases hfy
      · simp only [Option.bind_eq_bind, Option.some_bind]
        exact ih x h hf m2

/-- A fold in the Option monad succeeds when every step succeeds. -/
theorem foldlM_option_total {α β : Type} (f : β → α → Option β) :
    ∀ (l : List α), (∀ x ∈ l, ∀ m, ∃ r, f m x = some r) →
      ∀ init, ∃ res, l.foldlM f init = some res := by
  intro l
  induction l with
  | nil =>
    intro _ init
    exact ⟨init, by simp⟩
  | cons y t ih =>
    intro h init
    obtain ⟨m2, hm2⟩ := h y (List.mem_cons_self y t) init
    obtain ⟨res, hres⟩ := ih (fun x hx => h x (List.mem_cons_of_mem y hx)) m2
    exact ⟨res, by rw [List.foldlM_cons, hm2]; simpa⟩

/-- Membership in the loop-order pair list is exactly i < j < n. -/
theorem mem_pairList {n : ℕ} {p : ℕ × ℕ} :
    p ∈ pairList n ↔ p.1 < p.2 ∧ p.2 < n := by
  obtain ⟨i, j⟩ := p
  simp only [pairList, List.mem_flatMap, List.mem_map, List.mem_range,
    List.mem_range', Prod.mk.injEq]
  constructor
  · rintro ⟨a, ha, b, ⟨k, hk, hbk⟩, h1, h2⟩
    omega
  · rintro ⟨hij, hjn⟩
    exact ⟨i, by omega, ⟨j, ⟨j - (i + 1), by omega, by omega⟩, rfl, rfl⟩⟩

/-- A successful euclidean_distance is a square root, hence non-negative. -/
theorem euclidean_distance_nonneg {c1 c2 : List ℚ} {d : ℝ}
    (h : euclidean_distance c1 c2 = some d) : 0 ≤ d := by
  unfold euclidean_distance at h
  split_ifs at h
  cases h
  exact Real.sqrt_nonneg _

/-- euclidean_distance succeeds on rows of equal length. -/
theorem euclidean_distance_some {c1 c2 : List ℚ} (h : c1.length = c2.length) :
    ∃ d, euclidean_distance c1 c2 = some d := by
  unfold euclidean_distance
  rw [if_neg (not_ne_iff.mpr h)]
  exact ⟨_, rfl⟩

/-- The initial all-zeros matrix satisfies the matrix invariant. -/
theorem symOK_init (n : ℕ) :
    symOK n (List.replicate n (List.replicate n (0 : ℝ))) := by
  have hent : ∀ a b,
      entry (List.replicate n (List.replicate n (0 : ℝ))) a b = 0 := by
    intro a b
    simp only [entry, List.getD_eq_getElem?_getD, List.getElem?_replicate]
    split_ifs <;> simp [List.getElem?_replicate] <;> split_ifs <;> simp
  refine ⟨List.length_replicate n _, ?_, ?_, ?_, ?_⟩
  · intro row hrow
    rw [List.eq_of_mem_replicate hrow]
    exact List.length_replicate n _
  · intro a b
    rw [hent, hent]
  · intro a
    exact hent a a
  · intro a b
    rw [hent]

/-- One pairwise step of calc_cities_distance preserves the matrix
invariant. -/
theorem symOK_distStep {cities : List (List ℚ)} {n : ℕ}
    {m r : List (List ℝ)} {ij : ℕ × ℕ} (hij1 : ij.1 < ij.2) (hij2 : ij.2 < n)
    (hm : symOK n m) (hr : distStep cities m ij = some r) : symOK n r := by
  obtain ⟨hlen, hrows, hsym, hdiag, hnn⟩ := hm
  obtain ⟨i, j⟩ := ij
  simp only at hij1 hij2
  unfold distStep at hr
  cases he : euclidean_distance (cities.getD i []) (cities.getD j []) with
  | none =>
    rw [he] at hr
    cases hr
  | some d =>
    rw [he] at hr
    cases hr
    have hdnn : 0 ≤ d := euclidean_distance_nonneg he
    have hin : i < n := lt_trans hij1 hij2
    have hne : i ≠ j := Nat.ne_of_lt hij1
    have hmi : i < m.length := by rw [hlen]; exact hin
    have hmj : j < m.length := by rw [hlen]; exact hij2
    have hrowi : (m.getD i []).length = n := hrows _ (getD_mem_of_lt m i [] hmi)
    have hm1len : (setEntry m i j d).length = n := by
      simp [setEntry, hlen]
    have hm1rows : ∀ row ∈ setEntry m i j d, row.length = n := by
      intro row hrow
      rcases List.mem_or_eq_of_mem_set hrow with h | h
      · exact hrows row h
      · rw [h, List.length_set]
        exact hrowi
    have hm1j : j < (setEntry m i j d).length := by rw [hm1len]; exact hij2
    have hm1rowj : ((setEntry m i j d).getD j []).length = n :=
      hm1rows _ (getD_mem_of_lt _ j [] hm1j)
    have e1 : ∀ a b, entry (setEntry m i j d) a b =
        if a = i ∧ b = j then d else entry m a b :=
      fun a b => entry_setEntry m i j d a b hmi (by rw [hrowi]; exact hij2)
    have e2 : ∀ a b, entry (setEntry (setEntry m i j d) j i d) a b =
        if a = j ∧ b = i then d else entry (setEntry m i j d) a b :=
      fun a b => entry_setEntry _ j i d a b hm1j (by rw [hm1rowj]; exact hin)
    refine ⟨by simp [setEntry, hlen], ?_, ?_, ?_, ?_⟩
    · intro row hrow
      rcases List.mem_or_eq_of_mem_set hrow with h | h
      · exact hm1rows row h
      · rw [h, List.length_set]
        exact hm1rowj
    · intro a b
      rw [e2, e2, e1, e1]
      split_ifs <;> first | rfl | omega | exact hsym a b
    · intro a
      rw [e2, e1]
      split_ifs <;> first | omega | exact hdiag a
    · intro a b
      rw [e2, e1]
      split_ifs <;> first | exact hdnn | exact hnn a b

/-- C8: for equal-length coordinate rows, calc_cities_distance succeeds
and yields an N×N symmetric matrix with zero diagonal and non-negative
entries; if two rows differ in length it fails (the dimension-mismatch
panic of euclidean_distance). -/
theorem calc_cities_distance_spec (cities : List (List ℚ)) :
    ((∀ r1 ∈ cities, ∀ r2 ∈ cities, r1.length = r2.length) →
      ∃ m, calc_cities_distance cities = some m ∧
        m.length = cities.length ∧
        (∀ row ∈ m, row.length = cities.length) ∧
        (∀ a b, entry m a b = entry m b a) ∧
        (∀ a, entry m a a = 0) ∧
        (∀ a b, 0 ≤ entry m a b)) ∧
    (∀ a b, a < cities.length → b < cities.length →
      (cities.getD a []).length ≠ (cities.getD b []).length →
      calc_cities_distance cities = Option.none) := by
  constructor
  · intro hrect
    have hsteps : ∀ x ∈ pairList cities.length, ∀ m,
        ∃ r, distStep cities m x = some r := by
      intro x hx m
      obtain ⟨h1, h2⟩ := mem_pairList.mp hx
      have hi : x.1 < cities.length := lt_trans h1 h2
      have hlen : (cities.getD x.1 []).length = (cities.getD x.2 []).length :=
        hrect _ (getD_mem_of_lt cities x.1 [] hi)
          _ (getD_mem_of_lt cities x.2 [] h2)
      obtain ⟨d, hd⟩ := euclidean_distance_some hlen
      exact ⟨_, by unfold distStep; rw [hd]⟩
    obtain ⟨mm, hmm⟩ := foldlM_option_total (distStep cities)
      (pairList cities.length) hsteps
      (List.replicate cities.length (List.replicate cities.length (0 : ℝ)))
    have hok : symOK cities.length mm :=
      foldlM_option_inv (distStep cities) (symOK cities.length)
        (pairList cities.length) _ (symOK_init cities.length)
        (fun m x r hx hP hstep =>
          symOK_distStep (mem_pairList.mp hx).1 (mem_pairList.mp hx).2 hP hstep)
        mm hmm
    exact ⟨mm, hmm, hok⟩
  · intro a b ha hb hab
    have hne : a ≠ b := fun h => hab (h ▸ rfl)
    have hmem : (min a b, max a b) ∈ pairList cities.length :=
      mem_pairList.mpr ⟨by omega, by omega⟩
    have hfail : ∀ m, distStep cities m (min a b, max a b) = Option.none := by
      intro m
      have hd : euclidean_distance (cities.getD (min a b) [])
          (cities.getD (max a b) []) = Option.none := by
        have : (cities.getD (min a b) []).length ≠
            (cities.getD (max a b) []).length := by
          rcases le_total a b with h | h
          · rw [min_eq_left h, max_eq_right h]
            exact hab
          · rw [min_eq_right h, max_eq_left h]
            exact fun hh => hab hh.symm
        unfold euclidean_distance
        rw [if_pos this]
      unfold distStep
      rw [hd]
    exact foldlM_option_stuck (distStep cities) (pairList cities.length)
      (min a b, max a b) hmem hfail _

/-- C8 witness: a well-formed pair of 2-D cities builds a symmetric
matrix, and a ragged input fails. -/
theorem calc_cities_distance_spec_witness :
    (∃ m, calc_cities_distance [[0, 0], [3, 4]] = some m ∧
      m.length = 2 ∧ (∀ row ∈ m, row.length = 2) ∧
      (∀ a b, entry m a b = entry m b a) ∧
      (∀ a, entry m a a = 0) ∧
      (∀ a b, 0 ≤ entry m a b)) ∧
    calc_cities_distance [[0], [1, 2]] = Option.none := by
  constructor
  · have h := (calc_cities_distance_spec [[0, 0], [3, 4]]).1 (by decide)
    simpa using h
  · exact (calc_cities_distance_spec [[0], [1, 2]]).2 0 1 (by decide) (by decide)
      (by decide)

/-- An in-range getD read equals the getElem read. -/
theorem getD_eq_getElem_of_lt {α : Type} (l : List α) (k : ℕ) (d : α)
    (h : k < l.length) : l.getD k d = l[k] := by
  rw [List.getD_eq_getElem?_getD, List.getElem?_eq_getElem h, Option.getD_some]

/-- Splitting a list at an in-range position around the element there. -/
theorem split_at_getD {α : Type} (l : List α) (k : ℕ) (d : α)
    (h : k < l.length) : l = l.take k ++ l.getD k d :: l.drop (k + 1) := by
  conv_lhs => rw [← List.take_append_drop k l]
  rw [List.drop_eq_getElem_cons h, getD_eq_getElem_of_lt l k d h]

/-- Setting the position right after a prefix replaces the head of the
remainder. -/
theorem set_append_cons {α : Type} (A : List α) (x v : α) (R : List α) :
    (A ++ x :: R).set A.length v = A ++ v :: R := by
  induction A with
  | nil => rfl
  | cons a t ih => simpa using ih

/-- Reading the position right after a prefix gives the head of the
remainder. -/
theorem getD_append_cons {α : Type} (A : List α) (x : α) (R : List α) (d : α) :
    (A ++ x :: R).getD A.length d = x := by
  induction A with
  | nil => rfl
  | cons a t ih => simpa using ih

/-- A list splits around the elements at two ordered in-range positions. -/
theorem exists_two_split (l : List ℕ) (i j : ℕ) (hij : i < j)
    (hj : j < l.length) :
    ∃ A B C, l = A ++ l.getD i 0 :: (B ++ l.getD j 0 :: C) ∧
      A.length = i ∧ A.length + B.length + 1 = j := by
  have hi : i < l.length := lt_trans hij hj
  have hA : (l.take i).length = i := by
    rw [List.length_take]
    omega
  have hRlen : j - (i + 1) < (l.drop (i + 1)).length := by
    rw [List.length_drop]
    omega
  have hRget : (l.drop (i + 1)).getD (j - (i + 1)) 0 = l.getD j 0 := by
    rw [List.getD_eq_getElem?_getD, List.getD_eq_getElem?_getD,
      List.getElem?_drop]
    have : i + 1 + (j - (i + 1)) = j := by omega
    rw [this]
  refine ⟨l.take i, (l.drop (i + 1)).take (j - (i + 1)), (l.drop (i + 1)).drop (j - (i + 1) + 1), ?_, hA, ?_⟩
  · conv_lhs => rw [split_at_getD l i 0 hi]
    rw [← hRget]
    congr 2
    exact split_at_getD (l.drop (i + 1)) (j - (i + 1)) 0 hRlen
  · rw [hA, List.length_take]
    rw [List.length_drop]
    omega

/-- The source's ordering conditional produces (min, max). -/
theorem orderPair_eq_min_max (p q : ℕ) : orderPair p q = (min p q, max p q) := by
  unfold orderPair
  rcases le_or_lt p q with h | h
  · rw [if_neg (not_lt.mpr h), min_eq_left h, max_eq_right h]
  · rw [if_pos h, min_eq_right h.le, max_eq_left h.le]

/-- insertIdx at an in-range position is splice-in at that position. -/
theorem insertIdx_eq_take_cons_drop {α : Type} (a : α) :
    ∀ (k : ℕ) (l : List α), k ≤ l.length →
      l.insertIdx k a = l.take k ++ a :: l.drop k := by
  intro k
  induction k with
  | zero =>
    intro l _
    simp [List.insertIdx_zero]
  | succ k ih =>
    intro l hl
    cases l with
    | nil => simp at hl
    | cons b t =>
      rw [List.insertIdx_succ_cons]
      simp only [List.take_succ_cons, List.drop_succ_cons, List.cons_append,
        List.cons.injEq, true_and]
      exact ih t (by simpa using hl)

/-- insertIdx at an in-range position permutes with plain cons. -/
theorem insertIdx_perm_cons {α : Type} (a : α) (k : ℕ) (l : List α)
    (h : k ≤ l.length) : (l.insertIdx k a).Perm (a :: l) := by
  rw [insertIdx_eq_take_cons_drop a k l h]
  have := @List.perm_middle _ a (l.take k) (l.drop k)
  rw [List.take_append_drop k l] at this
  exact this

/-- Removing an in-range position permutes with extracting that element. -/
theorem cons_eraseIdx_perm (l : List ℕ) (j : ℕ) (hj : j < l.length) :
    (l.getD j 0 :: l.eraseIdx j).Perm l := by
  rw [List.eraseIdx_eq_take_drop_succ]
  have h2 := @List.perm_middle _ (l.getD j 0) (l.take j) (l.drop (j + 1))
  rw [← split_at_getD l j 0 hj] at h2
  exact h2.symm

/-- The ordered two-set exchange is a permutation. -/
theorem swap_core_perm (l : List ℕ) (i j : ℕ) (hij : i < j)
    (hj : j < l.length) :
    ((l.set i (l.getD j 0)).set j (l.getD i 0)).Perm l := by
  obtain ⟨A, B, C, hl, hA, hABj⟩ := exists_two_split l i j hij hj
  set x := l.getD i 0 with hx
  set y := l.getD j 0 with hy
  have h1 : l.set i y = A ++ y :: (B ++ y :: C) := by
    conv_lhs => rw [hl, ← hA]
    exact set_append_cons A x y (B ++ y :: C)
  have hassoc : A ++ y :: (B ++ y :: C) = (A ++ y :: B) ++ y :: C := by
    simp
  have hlen2 : (A ++ y :: B).length = j := by
    rw [List.length_append, List.length_cons]
    omega
  have h2 : (l.set i y).set j x = (A ++ y :: B) ++ x :: C := by
    rw [h1, hassoc, ← hlen2]
    exact set_append_cons (A ++ y :: B) y x C
  rw [h2, hl]
  have hyx : (y :: (B ++ x :: C)).Perm (x :: (B ++ y :: C)) :=
    ((List.Perm.cons y List.perm_middle).trans
      (List.Perm.swap x y (B ++ C))).trans
      (List.Perm.cons x List.perm_middle.symm)
  have hfin := List.Perm.append_left A hyx
  simpa [List.append_assoc] using hfin

/-- C6: each neighbor operator returns a permutation of its input tour
(the embedding is pure, so the input itself is untouched), and insert
with ordered positions i < j coincides with the spec's description:
remove the element at j and reinsert it immediately after position i. -/
theorem neighbor_ops_perm (l : List ℕ) (p q : ℕ) (hp : p < l.length)
    (hq : q < l.length) (hne : p ≠ q) :
    (swap l p q).Perm l ∧
    (insert l p q).Perm l ∧
    (reverse l p q).Perm l ∧
    (∀ shuffled : List ℕ,
      shuffled.Perm ((l.drop (min p q)).take (max p q - min p q + 1)) →
      (part_shuffle l p q shuffled).Perm l) ∧
    (p < q → insert l p q = insert_described l p q) := by
  have hop : orderPair p q = (min p q, max p q) := orderPair_eq_min_max p q
  have hij : min p q < max p q := by omega
  have hjlen : max p q < l.length := by
    rcases le_total p q with h | h
    · rw [max_eq_right h]
      exact hq
    · rw [max_eq_left h]
      exact hp
  have hins : insert l p q =
      (l.eraseIdx (max p q)).insertIdx (min p q + 1) (l.getD (max p q) 0) := by
    unfold insert
    rw [hop]
  have herased : min p q + 1 ≤ (l.eraseIdx (max p q)).length := by
    rw [List.length_eraseIdx_of_lt hjlen]
    omega
  have hseg : ((l.drop (min p q)).take (max p q - min p q + 1))
      ++ l.drop (max p q + 1) = l.drop (min p q) := by
    have hdd : (l.drop (min p q)).drop (max p q - min p q + 1)
        = l.drop (max p q + 1) := by
      rw [List.drop_drop]
      congr 1
      omega
    conv_rhs => rw [← List.take_append_drop (max p q - min p q + 1)
      (l.drop (min p q))]
    rw [hdd]
  refine ⟨?_, ?_, ?_, ?_, ?_⟩
  · rcases lt_or_gt_of_ne hne with h | h
    · exact swap_core_perm l p q h hq
    · unfold swap
      rw [List.set_comm (l.getD q 0) (l.getD p 0) l hne]
      exact swap_core_perm l q p h hp
  · rw [hins]
    exact (insertIdx_perm_cons _ _ _ herased).trans
      (cons_eraseIdx_perm l (max p q) hjlen)
  · unfold reverse
    rw [hop]
    have hrev : ((((l.drop (min p q)).take (max p q - min p q + 1)).reverse
        ++ l.drop (max p q + 1))).Perm
        (((l.drop (min p q)).take (max p q - min p q + 1))
          ++ l.drop (max p q + 1)) :=
      List.Perm.append_right _ (List.reverse_perm _)
    have hmain := List.Perm.append_left (l.take (min p q)) hrev
    rw [hseg, List.take_append_drop (min p q) l] at hmain
    simpa [List.append_assoc] using hmain
  · intro shuffled hsh
    unfold part_shuffle
    rw [hop]
    have hrev : (shuffled ++ l.drop (max p q + 1)).Perm
        (((l.drop (min p q)).take (max p q - min p q + 1))
          ++ l.drop (max p q + 1)) :=
      List.Perm.append_right _ hsh
    have hmain := List.Perm.append_left (l.take (min p q)) hrev
    rw [hseg, List.take_append_drop (min p q) l] at hmain
    simpa [List.append_assoc] using hmain
  · intro hpq
    rw [hins, min_eq_left hpq.le, max_eq_right hpq.le]
    unfold insert_described
    rw [← List.eraseIdx_eq_take_drop_succ]
    refine insertIdx_eq_take_cons_drop _ _ _ ?_
    rw [List.length_eraseIdx_of_lt hq]
    omega

/-- C6 witness: the four operators on the tour [0, 1, 2] with positions
0 and 2, and the insert description with ordered positions. -/
theorem neighbor_ops_perm_witness :
    (swap [0, 1, 2] 0 2).Perm [0, 1, 2] ∧
    (insert [0, 1, 2] 0 2).Perm [0, 1, 2] ∧
    (reverse [0, 1, 2] 0 2).Perm [0, 1, 2] ∧
    (∀ shuffled : List ℕ,
      shuffled.Perm ((([0, 1, 2] : List ℕ).drop (min 0 2)).take
        (max 0 2 - min 0 2 + 1)) →
      (part_shuffle [0, 1, 2] 0 2 shuffled).Perm [0, 1, 2]) ∧
    (0 < 2 → insert [0, 1, 2] 0 2 = insert_described [0, 1, 2] 0 2) :=
  neighbor_ops_perm [0, 1, 2] 0 2 (by decide) (by decide) (by decide)

/-- C1: evaluation of onlooker_bee at a concrete failing input.  The tour
[0,1,2,3] has length 4 and [0,2,1,3] has length 6 over dist4, yet with
draws covering both orders the code records every round's win for the
longer candidate (the source pushes selected_number1 exactly when
candidate 1 is LONGER) and returns the longer tour [0,2,1,3], where the
claim requires wins for the shorter candidate and the result [0,1,2,3]. -/
theorem onlooker_bee_selects_longer :
    calc_path_length [0, 1, 2, 3] dist4 = 4 ∧
    calc_path_length [0, 2, 1, 3] dist4 = 6 ∧
    onlooker_bee [[0, 1, 2, 3], [0, 2, 1, 3]] dist4 3 [0, 1, 1, 0] =
      some [0, 2, 1, 3] := by
  have hr : List.range 3 = [0, 1, 2] := rfl
  have h4 : calc_path_length [0, 1, 2, 3] dist4 = 4 := by
    simp [calc_path_length, matEntry, dist4, hr]
    norm_num
  have h6 : calc_path_length [0, 2, 1, 3] dist4 = 6 := by
    simp [calc_path_length, matEntry, dist4, hr]
    norm_num
  refine ⟨h4, h6, ?_⟩
  have step1 : onlooker_rounds [[0, 1, 2, 3], [0, 2, 1, 3]] dist4 2
        3 [0, 1, 1, 0] [] =
      onlooker_rounds [[0, 1, 2, 3], [0, 2, 1, 3]] dist4 2 2 [1, 0] [1] := by
    rw [show (3 : ℕ) = 2 + 1 from rfl, onlooker_rounds]
    simp [h4, h6]
    norm_num
  have step2 : onlooker_rounds [[0, 1, 2, 3], [0, 2, 1, 3]] dist4 2
        2 [1, 0] [1] =
      onlooker_rounds [[0, 1, 2, 3], [0, 2, 1, 3]] dist4 2 1 [] [1, 1] := by
    rw [show (2 : ℕ) = 1 + 1 from rfl, onlooker_rounds]
    simp [h4, h6]
    norm_num
  have step3 : onlooker_rounds [[0, 1, 2, 3], [0, 2, 1, 3]] dist4 2
      1 [] [1, 1] = some [1, 1] := by
    rw [show (1 : ℕ) = 0 + 1 from rfl, onlooker_rounds]
    rw [if_neg (by decide : ¬ ([1, 1] : List ℕ).length < 2)]
    intro d1 d2 rest h
    exact List.noConfusion h
  have hlen : ([[0, 1, 2, 3], [0, 2, 1, 3]] : List (List ℕ)).length = 2 := rfl
  unfold onlooker_bee
  rw [hlen, step1, step2, step3]
  decide

/-- C10: with a single candidate the selection loop can never draw two
distinct indices from {0}, so onlooker_bee never terminates — it returns
none for every fuel bound and every draw oracle — although
validate_config accepts a configuration with candidate_amount = 1. -/
theorem onlooker_bee_single_candidate_diverges (cand : List (List ℕ))
    (dist : List (List ℚ)) (hc : cand.length = 1) :
    (∀ (fuel : ℕ) (draws : List ℕ),
      onlooker_bee cand dist fuel draws = Option.none) ∧
    validate_config ⟨2, 1, 1, 1, 0, 1, GenerationMethod.swap⟩ = true := by
  have key : ∀ (f : ℕ) (draws : List ℕ),
      onlooker_rounds cand dist 1 f draws [] = Option.none := by
    intro f
    induction f with
    | zero =>
      intro draws
      rfl
    | succ f ih =>
      intro draws
      match draws with
      | [] => rfl
      | [d] => rfl
      | d1 :: d2 :: rest =>
        have h12 : d1 % 1 = d2 % 1 := by omega
        show onlooker_rounds cand dist 1 (f + 1) (d1 :: d2 :: rest) []
          = Option.none
        rw [onlooker_rounds]
        rw [if_pos (by simp : ([] : List ℕ).length < 1), if_pos h12]
        exact ih rest
  refine ⟨?_, by decide⟩
  intro fuel draws
  unfold onlooker_bee
  rw [hc, key fuel draws]

/-- C10 witness: the divergence statement instantiated on the singleton
candidate list [[0]]. -/
theorem onlooker_bee_single_candidate_diverges_witness :
    (∀ (fuel : ℕ) (draws : List ℕ),
      onlooker_bee [[0]] [[0]] fuel draws = Option.none) ∧
    validate_config ⟨2, 1, 1, 1, 0, 1, GenerationMethod.swap⟩ = true :=
  onlooker_bee_single_candidate_diverges [[0]] [[0]] rfl

/-- An observation untouched by every step at an index other than j is
unchanged by the fold as long as the fold stays below j. -/
theorem index_fold_obs {α : Type} (step : ℕ → ColonyState → ColonyState)
    (f : ColonyState → α) (j : ℕ)
    (H : ∀ i st, i ≠ j → f (step i st) = f st) :
    ∀ (half : ℕ) (st : ColonyState), half ≤ j →
      f (index_fold step half st) = f st := by
  intro half
  induction half with
  | zero =>
    intro st _
    rfl
  | succ h ih =>
    intro st hle
    unfold index_fold
    rw [List.range_succ, List.foldl_append]
    simp only [List.foldl_cons, List.foldl_nil]
    rw [H h _ (by omega)]
    exact ih st (by omega)

/-- An observation preserved by every step is preserved by the fold. -/
theorem index_fold_frame {α : Type} (step : ℕ → ColonyState → ColonyState)
    (f : ColonyState → α) (H : ∀ i st, f (step i st) = f st)
    (half : ℕ) (st : ColonyState) : f (index_fold step half st) = f st :=
  index_fold_obs step f half (fun i st _ => H i st) half st le_rfl

/-- An observation at index j after the full fold is the observation
right after the step at j, which itself acts on the fold up to j. -/
theorem index_fold_pointwise {α : Type}
    (step : ℕ → ColonyState → ColonyState) (f : ColonyState → α) (j : ℕ)
    (H : ∀ i st, i ≠ j → f (step i st) = f st) :
    ∀ (half : ℕ) (st : ColonyState), j < half →
      f (index_fold step half st) = f (step j (index_fold step j st)) := by
  intro half
  induction half with
  | zero =>
    intro st h
    omega
  | succ h ih =>
    intro st hlt
    unfold index_fold
    rw [List.range_succ, List.foldl_append]
    simp only [List.foldl_cons, List.foldl_nil]
    rcases Nat.lt_or_ge j h with hj | hj
    · rw [H h _ (by omega)]
      exact ih st hj
    · have hjh : j = h := by omega
      subst hjh
      rfl

/-- greedy_step never touches the best solution. -/
theorem greedy_step_best (ns : List (List ℕ)) (nl : List ℚ) (i : ℕ)
    (st : ColonyState) : (greedy_step ns nl i st).best = st.best := by
  unfold greedy_step
  split_ifs <;> rfl

/-- greedy_step never touches the best length. -/
theorem greedy_step_best_length (ns : List (List ℕ)) (nl : List ℚ) (i : ℕ)
    (st : ColonyState) :
    (greedy_step ns nl i st).best_length = st.best_length := by
  unfold greedy_step
  split_ifs <;> rfl

/-- greedy_step preserves the sizes of the three per-member lists. -/
theorem greedy_step_sizes (ns : List (List ℕ)) (nl : List ℚ) (i : ℕ)
    (st : ColonyState) :
    (greedy_step ns nl i st).solutions.length = st.solutions.length ∧
    (greedy_step ns nl i st).lengths.length = st.lengths.length ∧
    (greedy_step ns nl i st).unimproved.length = st.unimproved.length := by
  unfold greedy_step
  split_ifs <;> simp

/-- greedy_step at index i does not change reads at any other index. -/
theorem greedy_step_reads (ns : List (List ℕ)) (nl : List ℚ) (i k : ℕ)
    (h : i ≠ k) (st : ColonyState) :
    (greedy_step ns nl i st).solutions.getD k [] = st.solutions.getD k [] ∧
    (greedy_step ns nl i st).lengths.getD k 0 = st.lengths.getD k 0 ∧
    (greedy_step ns nl i st).unimproved.getD k 0 = st.unimproved.getD k 0 := by
  unfold greedy_step
  split_ifs <;> simp [List.getElem?_set_ne h]

/-- scout_step never touches the best solution. -/
theorem scout_step_best (dist : List (List ℚ)) (mu : ℕ)
    (scouts : List (List ℕ)) (i : ℕ) (st : ColonyState) :
    (scout_step dist mu scouts i st).best = st.best := by
  unfold scout_step
  split_ifs <;> rfl

/-- scout_step never touches the best length. -/
theorem scout_step_best_length (dist : List (List ℚ)) (mu : ℕ)
    (scouts : List (List ℕ)) (i : ℕ) (st : ColonyState) :
    (scout_step dist mu scouts i st).best_length = st.best_length := by
  unfold scout_step
  split_ifs <;> rfl

/-- scout_step preserves the sizes of the three per-member lists. -/
theorem scout_step_sizes (dist : List (List ℚ)) (mu : ℕ)
    (scouts : List (List ℕ)) (i : ℕ) (st : ColonyState) :
    (scout_step dist mu scouts i st).solutions.length
      = st.solutions.length ∧
    (scout_step dist mu scouts i st).lengths.length = st.lengths.length ∧
    (scout_step dist mu scouts i st).unimproved.length
      = st.unimproved.length := by
  unfold scout_step
  split_ifs <;> simp

/-- scout_step at index i does not change reads at any other index. -/
theorem scout_step_reads (dist : List (List ℚ)) (mu : ℕ)
    (scouts : List (List ℕ)) (i k : ℕ) (h : i ≠ k) (st : ColonyState) :
    (scout_step dist mu scouts i st).solutions.getD k []
      = st.solutions.getD k [] ∧
    (scout_step dist mu scouts i st).lengths.getD k 0
      = st.lengths.getD k 0 ∧
    (scout_step dist mu scouts i st).unimproved.getD k 0
      = st.unimproved.getD k 0 := by
  unfold scout_step
  split_ifs <;> simp [List.getElem?_set_ne h]

/-- The greedy phase never touches the best fields and preserves the
sizes of the per-member lists. -/
theorem greedy_phase_frame (half : ℕ) (ns : List (List ℕ)) (nl : List ℚ)
    (st : ColonyState) :
    (greedy_phase half ns nl st).best = st.best ∧
    (greedy_phase half ns nl st).best_length = st.best_length ∧
    (greedy_phase half ns nl st).solutions.length = st.solutions.length ∧
    (greedy_phase half ns nl st).lengths.length = st.lengths.length ∧
    (greedy_phase half ns nl st).unimproved.length = st.unimproved.length :=
  ⟨index_fold_frame _ (fun s => s.best)
      (fun i st => greedy_step_best ns nl i st) half st,
   index_fold_frame _ (fun s => s.best_length)
      (fun i st => greedy_step_best_length ns nl i st) half st,
   index_fold_frame _ (fun s => s.solutions.length)
      (fun i st => (greedy_step_sizes ns nl i st).1) half st,
   index_fold_frame _ (fun s => s.lengths.length)
      (fun i st => (greedy_step_sizes ns nl i st).2.1) half st,
   index_fold_frame _ (fun s => s.unimproved.length)
      (fun i st => (greedy_step_sizes ns nl i st).2.2) half st⟩

/-- The scout phase never touches the best fields and preserves the
sizes of the per-member lists. -/
theorem scout_phase_frame (dist : List (List ℚ)) (mu half : ℕ)
    (scouts : List (List ℕ)) (st : ColonyState) :
    (scout_phase dist mu half scouts st).best = st.best ∧
    (scout_phase dist mu half scouts st).best_length = st.best_length ∧
    (scout_phase dist mu half scouts st).solutions.length
      = st.solutions.length ∧
    (scout_phase dist mu half scouts st).lengths.length
      = st.lengths.length ∧
    (scout_phase dist mu half scouts st).unimproved.length
      = st.unimproved.length :=
  ⟨index_fold_frame _ (fun s => s.best)
      (fun i st => scout_step_best dist mu scouts i st) half st,
   index_fold_frame _ (fun s => s.best_length)
      (fun i st => scout_step_best_length dist mu scouts i st) half st,
   index_fold_frame _ (fun s => s.solutions.length)
      (fun i st => (scout_step_sizes dist mu scouts i st).1) half st,
   index_fold_frame _ (fun s => s.lengths.length)
      (fun i st => (scout_step_sizes dist mu scouts i st).2.1) half st,
   index_fold_frame _ (fun s => s.unimproved.length)
      (fun i st => (scout_step_sizes dist mu scouts i st).2.2) half st⟩

/-- greedy_step at its own (in-range) index: adopt on strict improvement,
else keep and bump the counter. -/
theorem greedy_step_self (ns : List (List ℕ)) (nl : List ℚ) (index : ℕ)
    (st : ColonyState) (h2 : index < st.solutions.length)
    (h3 : index < st.lengths.length) (h4 : index < st.unimproved.length) :
    (greedy_step ns nl index st).solutions.getD index [] =
      (if nl.getD index 0 < st.lengths.getD index 0 then ns.getD index []
       else st.solutions.getD index []) ∧
    (greedy_step ns nl index st).lengths.getD index 0 =
      (if nl.getD index 0 < st.lengths.getD index 0 then nl.getD index 0
       else st.lengths.getD index 0) ∧
    (greedy_step ns nl index st).unimproved.getD index 0 =
      (if nl.getD index 0 < st.lengths.getD index 0 then 0
       else st.unimproved.getD index 0 + 1) := by
  unfold greedy_step
  split_ifs with hc
  · exact ⟨getD_set_self_of_lt _ _ _ _ h2, getD_set_self_of_lt _ _ _ _ h3,
      getD_set_self_of_lt _ _ _ _ h4⟩
  · exact ⟨rfl, rfl, getD_set_self_of_lt _ _ _ _ h4⟩

/-- scout_step at its own (in-range) index: reinitialize exactly when the
counter strictly exceeds max_unimproved. -/
theorem scout_step_self (dist : List (List ℚ)) (mu : ℕ)
    (scouts : List (List ℕ)) (index : ℕ) (st : ColonyState)
    (h2 : index < st.solutions.length) (h3 : index < st.lengths.length)
    (h4 : index < st.unimproved.length) :
    (scout_step dist mu scouts index st).solutions.getD index [] =
      (if st.unimproved.getD index 0 > mu then scouts.getD index []
       else st.solutions.getD index []) ∧
    (scout_step dist mu scouts index st).lengths.getD index 0 =
      (if st.unimproved.getD index 0 > mu then
        calc_path_length (scouts.getD index []) dist
       else st.lengths.getD index 0) ∧
    (scout_step dist mu scouts index st).unimproved.getD index 0 =
      (if st.unimproved.getD index 0 > mu then 0
       else st.unimproved.getD index 0) := by
  unfold scout_step
  split_ifs with hc
  · exact ⟨getD_set_self_of_lt _ _ _ _ h2, getD_set_self_of_lt _ _ _ _ h3,
      getD_set_self_of_lt _ _ _ _ h4⟩
  · exact ⟨rfl, rfl, rfl⟩

/-- C4: in the greedy-replacement loop, every population index adopts the
trial tour and length and resets its stagnation counter to 0 exactly when
the trial length is strictly smaller; otherwise the member is unchanged
and its counter is incremented by 1. -/
theorem greedy_phase_spec (ns : List (List ℕ)) (nl : List ℚ) (half : ℕ)
    (st : ColonyState) (index : ℕ) (h1 : index < half)
    (h2 : index < st.solutions.length) (h3 : index < st.lengths.length)
    (h4 : index < st.unimproved.length) :
    (greedy_phase half ns nl st).solutions.getD index [] =
      (if nl.getD index 0 < st.lengths.getD index 0 then ns.getD index []
       else st.solutions.getD index []) ∧
    (greedy_phase half ns nl st).lengths.getD index 0 =
      (if nl.getD index 0 < st.lengths.getD index 0 then nl.getD index 0
       else st.lengths.getD index 0) ∧
    (greedy_phase half ns nl st).unimproved.getD index 0 =
      (if nl.getD index 0 < st.lengths.getD index 0 then 0
       else st.unimproved.getD index 0 + 1) := by
  have hsolPW := index_fold_pointwise (greedy_step ns nl)
    (fun s => s.solutions.getD index []) index
    (fun i st hi => (greedy_step_reads ns nl i index hi st).1) half st h1
  have hlenPW := index_fold_pointwise (greedy_step ns nl)
    (fun s => s.lengths.getD index 0) index
    (fun i st hi => (greedy_step_reads ns nl i index hi st).2.1) half st h1
  have huniPW := index_fold_pointwise (greedy_step ns nl)
    (fun s => s.unimproved.getD index 0) index
    (fun i st hi => (greedy_step_reads ns nl i index hi st).2.2) half st h1
  have hs0 : (index_fold (greedy_step ns nl) index st).solutions.getD index []
      = st.solutions.getD index [] :=
    index_fold_obs _ (fun s => s.solutions.getD index []) index
      (fun i st hi => (greedy_step_reads ns nl i index hi st).1) index st le_rfl
  have hl0 : (index_fold (greedy_step ns nl) index st).lengths.getD index 0
      = st.lengths.getD index 0 :=
    index_fold_obs _ (fun s => s.lengths.getD index 0) index
      (fun i st hi => (greedy_step_reads ns nl i index hi st).2.1) index st
      le_rfl
  have hu0 : (index_fold (greedy_step ns nl) index st).unimproved.getD index 0
      = st.unimproved.getD index 0 :=
    index_fold_obs _ (fun s => s.unimproved.getD index 0) index
      (fun i st hi => (greedy_step_reads ns nl i index hi st).2.2) index st
      le_rfl
  have hss : (index_fold (greedy_step ns nl) index st).solutions.length
      = st.solutions.length :=
    index_fold_frame _ (fun s => s.solutions.length)
      (fun i st => (greedy_step_sizes ns nl i st).1) index st
  have hls : (index_fold (greedy_step ns nl) index st).lengths.length
      = st.lengths.length :=
    index_fold_frame _ (fun s => s.lengths.length)
      (fun i st => (greedy_step_sizes ns nl i st).2.1) index st
  have hus : (index_fold (greedy_step ns nl) index st).unimproved.length
      = st.unimproved.length :=
    index_fold_frame _ (fun s => s.unimproved.length)
      (fun i st => (greedy_step_sizes ns nl i st).2.2) index st
  simp only at hsolPW hlenPW huniPW
  obtain ⟨gs1, gs2, gs3⟩ := greedy_step_self ns nl index
    (index_fold (greedy_step ns nl) index st)
    (by rw [hss]; exact h2) (by rw [hls]; exact h3) (by rw [hus]; exact h4)
  unfold greedy_phase
  rw [hsolPW, hlenPW, huniPW, gs1, gs2, gs3]
  simp only [hl0, hs0, hu0]
  exact ⟨trivial, trivial, trivial⟩

/-- C4 witness: a one-member population where the trial of length 1
beats the current length 2. -/
theorem greedy_phase_spec_witness :
    (greedy_phase 1 [[5]] [1] ⟨[[9]], [2], [3], [], 0⟩).solutions.getD 0 [] =
      (if (1 : ℚ) < 2 then [5] else [9]) ∧
    (greedy_phase 1 [[5]] [1] ⟨[[9]], [2], [3], [], 0⟩).lengths.getD 0 0 =
      (if (1 : ℚ) < 2 then 1 else 2) ∧
    (greedy_phase 1 [[5]] [1] ⟨[[9]], [2], [3], [], 0⟩).unimproved.getD 0 0 =
      (if (1 : ℚ) < 2 then 0 else 3 + 1) := by
  have h := greedy_phase_spec [[5]] [1] 1 ⟨[[9]], [2], [3], [], 0⟩ 0
    (by decide) (by decide) (by decide) (by decide)
  simpa using h

/-- C5: in the scout loop, every population index is replaced by the
fresh random tour (with its length recomputed and counter reset) exactly
when its stagnation counter strictly exceeds max_unimproved; otherwise
the member is unchanged. -/
theorem scout_phase_spec (dist : List (List ℚ)) (mu : ℕ)
    (scouts : List (List ℕ)) (half : ℕ) (st : ColonyState) (index : ℕ)
    (h1 : index < half) (h2 : index < st.solutions.length)
    (h3 : index < st.lengths.length) (h4 : index < st.unimproved.length) :
    (scout_phase dist mu half scouts st).solutions.getD index [] =
      (if st.unimproved.getD index 0 > mu then scouts.getD index []
       else st.solutions.getD index []) ∧
    (scout_phase dist mu half scouts st).lengths.getD index 0 =
      (if st.unimproved.getD index 0 > mu then
        calc_path_length (scouts.getD index []) dist
       else st.lengths.getD index 0) ∧
    (scout_phase dist mu half scouts st).unimproved.getD index 0 =
      (if st.unimproved.getD index 0 > mu then 0
       else st.unimproved.getD index 0) := by
  have hsolPW := index_fold_pointwise (scout_step dist mu scouts)
    (fun s => s.solutions.getD index []) index
    (fun i st hi => (scout_step_reads dist mu scouts i index hi st).1)
    half st h1
  have hlenPW := index_fold_pointwise (scout_step dist mu scouts)
    (fun s => s.lengths.getD index 0) index
    (fun i st hi => (scout_step_reads dist mu scouts i index hi st).2.1)
    half st h1
  have huniPW := index_fold_pointwise (scout_step dist mu scouts)
    (fun s => s.unimproved.getD index 0) index
    (fun i st hi => (scout_step_reads dist mu scouts i index hi st).2.2)
    half st h1
  have hs0 : (index_fold (scout_step dist mu scouts) index st).solutions.getD
      index [] = st.solutions.getD index [] :=
    index_fold_obs _ (fun s => s.solutions.getD index []) index
      (fun i st hi => (scout_step_reads dist mu scouts i index hi st).1)
      index st le_rfl
  have hl0 : (index_fold (scout_step dist mu scouts) index st).lengths.getD
      index 0 = st.lengths.getD index 0 :=
    index_fold_obs _ (fun s => s.lengths.getD index 0) index
      (fun i st hi => (scout_step_reads dist mu scouts i index hi st).2.1)
      index st le_rfl
  have hu0 : (index_fold (scout_step dist mu scouts) index st).unimproved.getD
      index 0 = st.unimproved.getD index 0 :=
    index_fold_obs _ (fun s => s.unimproved.getD index 0) index
      (fun i st hi => (scout_step_reads dist mu scouts i index hi st).2.2)
      index st le_rfl
  have hss : (index_fold (scout_step dist mu scouts) index st).solutions.length
      = st.solutions.length :=
    index_fold_frame _ (fun s => s.solutions.length)
      (fun i st => (scout_step_sizes dist mu scouts i st).1) index st
  have hls : (index_fold (scout_step dist mu scouts) index st).lengths.length
      = st.lengths.length :=
    index_fold_frame _ (fun s => s.lengths.length)
      (fun i st => (scout_step_sizes dist mu scouts i st).2.1) index st
  have hus : (index_fold (scout_step dist mu scouts) index st).unimproved.length
      = st.unimproved.length :=
    index_fold_frame _ (fun s => s.unimproved.length)
      (fun i st => (scout_step_sizes dist mu scouts i st).2.2) index st
  simp only at hsolPW hlenPW huniPW
  obtain ⟨gs1, gs2, gs3⟩ := scout_step_self dist mu scouts index
    (index_fold (scout_step dist mu scouts) index st)
    (by rw [hss]; exact h2) (by rw [hls]; exact h3) (by rw [hus]; exact h4)
  unfold scout_phase
  rw [hsolPW, hlenPW, huniPW, gs1, gs2, gs3]
  simp only [hl0, hs0, hu0]
  exact ⟨trivial, trivial, trivial⟩

/-- C5 witness: a one-member population whose counter 5 exceeds
max_unimproved 3, so the scout replaces it. -/
theorem scout_phase_spec_witness :
    (scout_phase [[0]] 3 1 [[7]] ⟨[[9]], [2], [5], [], 0⟩).solutions.getD 0 []
      = (if 5 > 3 then [7] else [9]) ∧
    (scout_phase [[0]] 3 1 [[7]] ⟨[[9]], [2], [5], [], 0⟩).lengths.getD 0 0
      = (if 5 > 3 then calc_path_length [7] [[0]] else 2) ∧
    (scout_phase [[0]] 3 1 [[7]] ⟨[[9]], [2], [5], [], 0⟩).unimproved.getD 0 0
      = (if 5 > 3 then 0 else 5) := by
  have h := scout_phase_spec [[0]] 3 [[7]] 1 ⟨[[9]], [2], [5], [], 0⟩ 0
    (by decide) (by decide) (by decide) (by decide)
  simpa using h

/-- A min-fold is below its seed and below every list element. -/
theorem foldl_min_facts (xs : List ℚ) : ∀ (b : ℚ),
    xs.foldl min b ≤ b ∧ ∀ x ∈ xs, xs.foldl min b ≤ x := by
  induction xs with
  | nil =>
    intro b
    exact ⟨le_refl b, by simp⟩
  | cons x t ih =>
    intro b
    rw [List.foldl_cons]
    obtain ⟨h1, h2⟩ := ih (min b x)
    refine ⟨le_trans h1 (min_le_left b x), ?_⟩
    intro y hy
    rcases List.mem_cons.mp hy with h | h
    · rw [h]
      exact le_trans h1 (min_le_right b x)
    · exact h2 y h

/-- The min_by fold tracks an in-range index holding the running
minimum. -/
theorem min_index_aux_spec (l : List ℚ) :
    ∀ (xs : List ℚ) (i besti : ℕ) (bestv : ℚ),
      xs = l.drop i → besti < l.length → l.getD besti 0 = bestv →
      min_index_aux xs i besti bestv < l.length ∧
      l.getD (min_index_aux xs i besti bestv) 0 = xs.foldl min bestv := by
  intro xs
  induction xs with
  | nil =>
    intro i besti bestv hxs hb hv
    exact ⟨hb, by simpa using hv⟩
  | cons x t ih =>
    intro i besti bestv hxs hb hv
    have hi : i < l.length := by
      by_contra hc
      have hdrop : l.drop i = [] := List.drop_eq_nil_of_le (by omega)
      rw [hdrop] at hxs
      exact List.noConfusion hxs
    have hgd : l.getD i 0 = x := by
      have h0 : l[i]? = some x := by
        have hd := List.getElem?_drop l i 0
        rw [Nat.add_zero] at hd
        rw [← hd, ← hxs]
        simp
      rw [List.getD_eq_getElem?_getD, h0]
      rfl
    have ht : t = l.drop (i + 1) := by
      have hd : (l.drop i).drop 1 = l.drop (i + 1) := by
        rw [List.drop_drop]
      rw [← hd, ← hxs]
      rfl
    rw [min_index_aux, List.foldl_cons]
    by_cases hx : x < bestv
    · rw [if_pos hx, min_eq_right hx.le]
      exact ih (i + 1) i x ht hi hgd
    · rw [if_neg hx, min_eq_left (not_lt.mp hx)]
      exact ih (i + 1) besti bestv ht hb hv

/-- The first-minimum index of a non-empty list is in range, reads back
the minimum value, and that value bounds every element. -/
theorem min_index_spec (l : List ℚ) (hne : l ≠ []) :
    min_index l < l.length ∧ l.getD (min_index l) 0 = list_min l ∧
    ∀ k, k < l.length → list_min l ≤ l.getD k 0 := by
  cases l with
  | nil => exact absurd rfl hne
  | cons x xs =>
    have h := min_index_aux_spec (x :: xs) xs 1 0 x rfl (by simp) rfl
    refine ⟨h.1, h.2, ?_⟩
    intro k hk
    cases k with
    | zero => exact (foldl_min_facts xs x).1
    | succ k =>
      show xs.foldl min x ≤ (x :: xs).getD (k + 1) 0
      rw [List.getD_cons_succ]
      exact (foldl_min_facts xs x).2 _
        (getD_mem_of_lt xs k 0 (by simpa using hk))

/-- best_update never increases the best length. -/
theorem best_update_mono (th : ℚ) (st : ColonyState) :
    (best_update th st).1.best_length ≤ st.best_length := by
  unfold best_update
  split_ifs with hc
  · simpa using le_of_lt hc
  · exact le_refl _

/-- One iteration never increases the best length. -/
theorem abc_iteration_best_length_mono (dist : List (List ℚ))
    (config : ConfigKind) (ns scouts : List (List ℕ)) (st : ColonyState) :
    (abc_iteration dist config ns scouts st).1.best_length
      ≤ st.best_length := by
  unfold abc_iteration
  refine le_trans (best_update_mono _ _) ?_
  refine le_of_eq ?_
  rw [(scout_phase_frame dist config.max_unimproved (config.colony_size / 2)
    scouts _).2.1]
  rw [(greedy_phase_frame (config.colony_size / 2) ns
    (ns.map (fun s => calc_path_length s dist)) st).2.1]

/-- The loop never increases the best length. -/
theorem abc_loop_best_length_mono (dist : List (List ℚ))
    (config : ConfigKind) (oracle : ℕ → List (List ℕ) × List (List ℕ)) :
    ∀ (n t : ℕ) (st : ColonyState),
      (abc_loop dist config oracle n t st).1.best_length
        ≤ st.best_length := by
  intro n
  induction n with
  | zero =>
    intro t st
    exact le_refl _
  | succ n ih =>
    intro t st
    rw [abc_loop]
    split_ifs with hb
    · exact abc_iteration_best_length_mono dist config _ _ st
    · exact le_trans (ih (t + 1) _)
        (abc_iteration_best_length_mono dist config _ _ st)

/-- The loop executes at most its remaining-iteration budget. -/
theorem abc_loop_count (dist : List (List ℚ)) (config : ConfigKind)
    (oracle : ℕ → List (List ℕ) × List (List ℕ)) :
    ∀ (n t : ℕ) (st : ColonyState),
      (abc_loop dist config oracle n t st).2 ≤ t + n := by
  intro n
  induction n with
  | zero =>
    intro t st
    simp [abc_loop]
  | succ n ih =>
    intro t st
    rw [abc_loop]
    split_ifs with hb
    · exact (by omega : t + 1 ≤ t + (n + 1))
    · exact le_trans (ih (t + 1) _) (by omega)

/-- C2: after the greedy and scout phases of an iteration (whose combined
result is st2), the best fields were untouched; if the minimum population
length strictly beats the old best then the best length becomes that
minimum, the best tour becomes that member, and the iteration breaks
exactly when (old best − new) / old best is strictly below
improvement_threshold; if no member beats the best the state and the
continue-flag are unchanged; and the loop never exceeds its
max_iterations budget. -/
theorem abc_iteration_spec (dist : List (List ℚ)) (config : ConfigKind)
    (ns scouts : List (List ℕ)) (st st2 : ColonyState)
    (oracle : ℕ → List (List ℕ) × List (List ℕ))
    (hst2 : st2 = scout_phase dist config.max_unimproved
      (config.colony_size / 2) scouts
      (greedy_phase (config.colony_size / 2) ns
        (ns.map (fun s => calc_path_length s dist)) st))
    (hne : st2.lengths ≠ []) :
    st2.best_length = st.best_length ∧
    (list_min st2.lengths < st.best_length →
      (abc_iteration dist config ns scouts st).1.best_length
        = list_min st2.lengths ∧
      (abc_iteration dist config ns scouts st).1.best
        = st2.solutions.getD (min_index st2.lengths) [] ∧
      ((abc_iteration dist config ns scouts st).2 = true ↔
        (st.best_length - list_min st2.lengths) / st.best_length
          < config.improvement_threshold)) ∧
    (¬ list_min st2.lengths < st.best_length →
      (abc_iteration dist config ns scouts st).1 = st2 ∧
      (abc_iteration dist config ns scouts st).2 = false) ∧
    (∀ (n t : ℕ) (st3 : ColonyState),
      (abc_loop dist config oracle n t st3).2 ≤ t + n) := by
  have hbest2 : st2.best_length = st.best_length := by
    rw [hst2,
      (scout_phase_frame dist config.max_unimproved (config.colony_size / 2)
        scouts _).2.1,
      (greedy_phase_frame (config.colony_size / 2) ns
        (ns.map (fun s => calc_path_length s dist)) st).2.1]
  have hiter : abc_iteration dist config ns scouts st =
      best_update config.improvement_threshold st2 := by
    rw [hst2]
    rfl
  obtain ⟨h1, h2, h3⟩ := min_index_spec st2.lengths hne
  refine ⟨hbest2, ?_, ?_, fun n t st3 => abc_loop_count dist config oracle n t st3⟩
  · intro hlt
    rw [hiter]
    unfold best_update
    rw [if_pos (by rw [h2, hbest2]; exact hlt)]
    refine ⟨by simpa using h2, by simp, ?_⟩
    show decide _ = true ↔ _
    rw [decide_eq_true_eq, h2, hbest2]
  · intro hnlt
    rw [hiter]
    unfold best_update
    rw [if_neg (by rw [h2, hbest2]; exact hnlt)]
    exact ⟨rfl, rfl⟩

/-- C3: across the loop the best length is non-increasing, each single
iteration is non-increasing, and the best tour is overwritten only when
some member of the post-phase population (st2) is strictly shorter than
the current best. -/
theorem abc_best_monotone (dist : List (List ℚ)) (config : ConfigKind)
    (oracle : ℕ → List (List ℕ) × List (List ℕ))
    (ns scouts : List (List ℕ)) (st st2 : ColonyState)
    (hst2 : st2 = scout_phase dist config.max_unimproved
      (config.colony_size / 2) scouts
      (greedy_phase (config.colony_size / 2) ns
        (ns.map (fun s => calc_path_length s dist)) st))
    (hne : st2.lengths ≠ []) :
    (∀ (n t : ℕ) (st3 : ColonyState),
      (abc_loop dist config oracle n t st3).1.best_length
        ≤ st3.best_length) ∧
    (abc_iteration dist config ns scouts st).1.best_length
      ≤ st.best_length ∧
    ((abc_iteration dist config ns scouts st).1.best ≠ st.best →
      ∃ k, k < st2.lengths.length ∧
        st2.lengths.getD k 0 < st.best_length) := by
  have hbest2 : st2.best_length = st.best_length := by
    rw [hst2,
      (scout_phase_frame dist config.max_unimproved (config.colony_size / 2)
        scouts _).2.1,
      (greedy_phase_frame (config.colony_size / 2) ns
        (ns.map (fun s => calc_path_length s dist)) st).2.1]
  have hbb2 : st2.best = st.best := by
    rw [hst2,
      (scout_phase_frame dist config.max_unimproved (config.colony_size / 2)
        scouts _).1,
      (greedy_phase_frame (config.colony_size / 2) ns
        (ns.map (fun s => calc_path_length s dist)) st).1]
  have hiter : abc_iteration dist config ns scouts st =
      best_update config.improvement_threshold st2 := by
    rw [hst2]
    rfl
  obtain ⟨h1, h2, h3⟩ := min_index_spec st2.lengths hne
  refine ⟨fun n t st3 => abc_loop_best_length_mono dist config oracle n t st3,
    abc_iteration_best_length_mono dist config ns scouts st, ?_⟩
  intro hchanged
  by_cases hc : st2.lengths.getD (min_index st2.lengths) 0 < st2.best_length
  · exact ⟨min_index st2.lengths, h1, by rw [← hbest2]; exact hc⟩
  · exfalso
    apply hchanged
    rw [hiter]
    unfold best_update
    rw [if_neg hc]
    exact hbb2

/-- The concrete post-phase state has a non-empty length list. -/
theorem st2_w_lengths_ne : st2_w.lengths ≠ [] := by
  have hlen2 : st2_w.lengths.length = 1 := by
    unfold st2_w
    rw [(scout_phase_frame [[0]] cfg1.max_unimproved (cfg1.colony_size / 2)
        [[0]] _).2.2.2.1,
      (greedy_phase_frame (cfg1.colony_size / 2) [[0]]
        (([[0]] : List (List ℕ)).map (fun s => calc_path_length s [[0]]))
        st_w).2.2.2.1]
    rfl
  intro hnil
  rw [hnil] at hlen2
  exact absurd hlen2 (by simp)

/-- C2 witness: the iteration/convergence specification instantiated on
the concrete one-member colony. -/
theorem abc_iteration_spec_witness :
    st2_w.best_length = st_w.best_length ∧
    (list_min st2_w.lengths < st_w.best_length →
      (abc_iteration [[0]] cfg1 [[0]] [[0]] st_w).1.best_length
        = list_min st2_w.lengths ∧
      (abc_iteration [[0]] cfg1 [[0]] [[0]] st_w).1.best
        = st2_w.solutions.getD (min_index st2_w.lengths) [] ∧
      ((abc_iteration [[0]] cfg1 [[0]] [[0]] st_w).2 = true ↔
        (st_w.best_length - list_min st2_w.lengths) / st_w.best_length
          < cfg1.improvement_threshold)) ∧
    (¬ list_min st2_w.lengths < st_w.best_length →
      (abc_iteration [[0]] cfg1 [[0]] [[0]] st_w).1 = st2_w ∧
      (abc_iteration [[0]] cfg1 [[0]] [[0]] st_w).2 = false) ∧
    (∀ (n t : ℕ) (st3 : ColonyState),
      (abc_loop [[0]] cfg1 oracle_w n t st3).2 ≤ t + n) :=
  abc_iteration_spec [[0]] cfg1 [[0]] [[0]] st_w st2_w oracle_w rfl
    st2_w_lengths_ne

/-- C3 witness: the monotonicity statement instantiated on the concrete
one-member colony. -/
theorem abc_best_monotone_witness :
    (∀ (n t : ℕ) (st3 : ColonyState),
      (abc_loop [[0]] cfg1 oracle_w n t st3).1.best_length
        ≤ st3.best_length) ∧
    (abc_iteration [[0]] cfg1 [[0]] [[0]] st_w).1.best_length
      ≤ st_w.best_length ∧
    ((abc_iteration [[0]] cfg1 [[0]] [[0]] st_w).1.best ≠ st_w.best →
      ∃ k, k < st2_w.lengths.length ∧
        st2_w.lengths.getD k 0 < st_w.best_length) :=
  abc_best_monotone [[0]] cfg1 oracle_w [[0]] [[0]] st_w st2_w rfl
    st2_w_lengths_ne

end ABC
